import Mathlib

/-!
Verification development for the `build_kg` LLM-enrichment pipeline
(`llm_generate_json.py`).  The definitions below are a shallow embedding of
the Python source: `JSONStorage` (durable store), `AsyncLLMGenerator`
(async client, batch orchestrator, entity extraction), and the small
filesystem dance inside `JSONStorage._save_json`.  Machine-level details
that the claims do not touch (prompt text, logging, wall-clock pacing) are
omitted; every omission is noted at the definition it concerns.
-/

namespace BuildKG

/-- JSON values: the universal payload type of the pipeline.  Python dicts,
lists, strings, numbers, booleans and `None` that flow through
`json.loads` / `json.dump` are modelled by this type.  Number literals are
kept as their source text (no claim depends on numeric value). -/
inductive Json where
  | null : Json
  | bool (b : Bool) : Json
  | num (lit : String) : Json
  | str (s : String) : Json
  | arr (items : List Json) : Json
  | obj (fields : List (String × Json)) : Json

mutual

/-- Structural equality on `Json`, modelling Python `==` on the JSON data
that the pipeline stores (used for `in` membership tests on lists). -/
def jeq : Json → Json → Bool
  | .null, .null => true
  | .bool a, .bool b => a == b
  | .num a, .num b => a == b
  | .str a, .str b => a == b
  | .arr xs, .arr ys => jeqList xs ys
  | .obj xs, .obj ys => jeqObj xs ys
  | _, _ => false

/-- Pointwise `jeq` on lists. -/
def jeqList : List Json → List Json → Bool
  | [], [] => true
  | x :: xs, y :: ys => jeq x y && jeqList xs ys
  | _, _ => false

/-- Pointwise `jeq` on object field lists. -/
def jeqObj : List (String × Json) → List (String × Json) → Bool
  | [], [] => true
  | (k, v) :: xs, (l, w) :: ys => k == l && jeq v w && jeqObj xs ys
  | _, _ => false

end

/-- Python `x in l` for a JSON value against a list. -/
def jmem (x : Json) (l : List Json) : Bool :=
  l.any (jeq x)

theorem jeq_str_iff (a b : String) : jeq (Json.str a) (Json.str b) = true ↔ a = b := by
  simp [jeq]

theorem jmem_append (x : Json) (l₁ l₂ : List Json) :
    jmem x (l₁ ++ l₂) = (jmem x l₁ || jmem x l₂) := by
  simp [jmem, List.any_append]

theorem jmem_str_map (a : String) (ids : List String) :
    jmem (Json.str a) (ids.map Json.str) = true ↔ a ∈ ids := by
  simp only [jmem, List.any_eq_true]
  constructor
  · rintro ⟨b, hb, hj⟩
    obtain ⟨i, hi, rfl⟩ := List.mem_map.1 hb
    rw [jeq_str_iff] at hj
    subst hj
    exact hi
  · intro h
    exact ⟨Json.str a, List.mem_map_of_mem Json.str h, (jeq_str_iff a a).2 rfl⟩

/-- Does `p` occur at the head of `l`?  (List version of `str.startswith`.) -/
def leadsWith : List Char → List Char → Bool
  | [], _ => true
  | _ :: _, [] => false
  | a :: p, b :: l => a == b && leadsWith p l

/-- Python `needle in hay` substring test, on character lists. -/
def hasSub (needle : List Char) : List Char → Bool
  | [] => leadsWith needle []
  | b :: rest => leadsWith needle (b :: rest) || hasSub needle rest

/-- Python `needle in hay` on strings. -/
def strContains (hay needle : String) : Bool :=
  hasSub needle.data hay.data

/-- Python `s.find(c)`: index of the first occurrence, `none` for `-1`. -/
def pyFind (c : Char) : List Char → Option Nat
  | [] => none
  | a :: rest => if a = c then some 0 else (pyFind c rest).map (· + 1)

/-- Python `s.rfind(c)`: index of the last occurrence, `none` for `-1`. -/
def pyRfind (c : Char) : List Char → Option Nat
  | [] => none
  | a :: rest =>
    match pyRfind c rest with
    | some i => some (i + 1)
    | none => if a = c then some 0 else none

/-- Python slice `s[i:j]` on character lists. -/
def pySlice (s : List Char) (i j : Nat) : List Char :=
  (s.drop i).take (j - i)

theorem pyFind_spec (c : Char) :
    ∀ (s : List Char) (i : Nat), pyFind c s = some i →
      s.getD i 'a' = c ∧ ∀ k, k < i → s.getD k 'a' ≠ c
  | [], i => by simp [pyFind]
  | a :: rest, i => by
    simp only [pyFind]
    by_cases h : a = c
    · simp only [if_pos h, Option.some.injEq]
      rintro rfl
      exact ⟨h, by omega⟩
    · simp only [if_neg h, Option.map_eq_some']
      rintro ⟨j, hj, rfl⟩
      have ih := pyFind_spec c rest j hj
      refine ⟨ih.1, ?_⟩
      intro k hk
      match k with
      | 0 => simpa using h
      | k + 1 => simpa using ih.2 k (by omega)

theorem pyRfind_none (c : Char) :
    ∀ s : List Char, pyRfind c s = none → ∀ k, k < s.length → s.getD k 'a' ≠ c
  | [] => by simp
  | a :: rest => by
    simp only [pyRfind]
    cases hr : pyRfind c rest with
    | some i => simp
    | none =>
      intro h k hk
      by_cases hac : a = c
      · simp [hac] at h
      · match k with
        | 0 => simpa using hac
        | k + 1 =>
          simp only [List.getD_cons_succ]
          exact pyRfind_none c rest hr k (by simpa using hk)

theorem pyRfind_spec (c : Char) :
    ∀ (s : List Char) (j : Nat), pyRfind c s = some j →
      s.getD j 'a' = c ∧ ∀ k, j < k → k < s.length → s.getD k 'a' ≠ c
  | [], j => by simp [pyRfind]
  | a :: rest, j => by
    simp only [pyRfind]
    cases hr : pyRfind c rest with
    | some i =>
      simp only [Option.some.injEq]
      rintro rfl
      have ih := pyRfind_spec c rest i hr
      refine ⟨by simpa using ih.1, ?_⟩
      intro k hk hklen
      match k with
      | 0 => omega
      | k + 1 =>
        simp only [List.getD_cons_succ]
        exact ih.2 k (by omega) (by simpa using hklen)
    | none =>
      by_cases h : a = c
      · simp only [if_pos h, Option.some.injEq]
        rintro rfl
        refine ⟨by simpa using h, ?_⟩
        intro k hk hklen
        match k with
        | 0 => omega
        | k + 1 =>
          simp only [List.getD_cons_succ]
          exact pyRfind_none c rest hr k (by simpa using hklen)
      · simp [if_neg h]

/-- `range(0, len(l), bs)` chunking as done by `process_patents_async`
(`patents[i:i + batch_size]`).  For `bs = 0` Python raises `ValueError`;
all lemmas therefore assume `0 < bs` (the config ships `batch_size = 10`). -/
def chunksBy (bs : Nat) : List α → List (List α)
  | [] => []
  | a :: l => (a :: l).take bs :: chunksBy bs (l.drop (bs - 1))
termination_by l => l.length
decreasing_by simp only [List.length_drop, List.length_cons]; omega

theorem chunksBy_flatten (bs : Nat) (hbs : 0 < bs) :
    ∀ l : List α, (chunksBy bs l).flatten = l
  | [] => by simp [chunksBy]
  | a :: l => by
    rw [chunksBy]
    have ih := chunksBy_flatten bs hbs (l.drop (bs - 1))
    simp only [List.flatten_cons, ih]
    match bs, hbs with
    | b + 1, _ => simp [List.take_cons]
termination_by l => l.length
decreasing_by simp only [List.length_drop, List.length_cons]; omega

/-- The apostrophe character (Python `repr` quotes strings with it). -/
def sq : String := String.singleton (Char.ofNat 39)

/-- Opening curly brace character. -/
def lbrace : Char := Char.ofNat 123

/-- Closing curly brace character. -/
def rbrace : Char := Char.ofNat 125

mutual

/-- Python `repr` of a JSON-shaped value (escape sequences inside strings
are not reproduced; the claims only evaluate this on plain text).  Used to
model the `str(items)` substring dispatch in `JSONStorage.append_data`. -/
def pyRepr : Json → String
  | .null => "None"
  | .bool true => "True"
  | .bool false => "False"
  | .num lit => lit
  | .str s => sq ++ s ++ sq
  | .arr xs => "[" ++ pyReprItems xs ++ "]"
  | .obj fs => String.singleton lbrace ++ pyReprFields fs ++ String.singleton rbrace

/-- Comma-separated `repr` of list items. -/
def pyReprItems : List Json → String
  | [] => ""
  | [x] => pyRepr x
  | x :: y :: rest => pyRepr x ++ ", " ++ pyReprItems (y :: rest)

/-- Comma-separated `repr` of dict fields. -/
def pyReprFields : List (String × Json) → String
  | [] => ""
  | [(k, v)] => sq ++ k ++ sq ++ ": " ++ pyRepr v
  | (k, v) :: f :: rest => sq ++ k ++ sq ++ ": " ++ pyRepr v ++ ", " ++ pyReprFields (f :: rest)

end

/-- Python `str(items)` for a list value: `str` of a list is its `repr`. -/
def pyStrList (items : List Json) : String :=
  "[" ++ pyReprItems items ++ "]"

/-- JSON whitespace (the four characters `json.loads` skips). -/
def isWs (c : Char) : Bool :=
  c == ' ' || c == '\n' || c == '\t' || c == '\r'

/-- Drop leading JSON whitespace. -/
def skipWs (s : List Char) : List Char :=
  s.dropWhile isWs

/-- Value of one hex digit. -/
def hexVal (c : Char) : Option Nat :=
  if '0' ≤ c ∧ c ≤ '9' then some (c.toNat - 48)
  else if 'a' ≤ c ∧ c ≤ 'f' then some (c.toNat - 87)
  else if 'A' ≤ c ∧ c ≤ 'F' then some (c.toNat - 55)
  else none

/-- Parse the body of a JSON string (after the opening quote), returning
its decoded characters and the remainder after the closing quote.
Models the string scanner of Python `json.loads`. -/
def parseStrChars : Nat → List Char → Option (List Char × List Char)
  | 0, _ => none
  | _ + 1, [] => none
  | fuel + 1, c :: rest =>
    if c == '"' then some ([], rest)
    else if c == '\\' then
      match rest with
      | [] => none
      | e :: rest2 =>
        let dec : Option (Char × List Char) :=
          if e == '"' then some ('"', rest2)
          else if e == '\\' then some ('\\', rest2)
          else if e == '/' then some ('/', rest2)
          else if e == 'n' then some ('\n', rest2)
          else if e == 't' then some ('\t', rest2)
          else if e == 'r' then some ('\r', rest2)
          else if e == 'b' then some (Char.ofNat 8, rest2)
          else if e == 'f' then some (Char.ofNat 12, rest2)
          else if e == 'u' then
            match rest2 with
            | h1 :: h2 :: h3 :: h4 :: rest3 =>
              match hexVal h1, hexVal h2, hexVal h3, hexVal h4 with
              | some a, some b, some c2, some d =>
                some (Char.ofNat (((a * 16 + b) * 16 + c2) * 16 + d), rest3)
              | _, _, _, _ => none
            | _ => none
          else none
        match dec with
        | none => none
        | some (ch, r) => (parseStrChars fuel r).map (fun p => (ch :: p.1, p.2))
    else (parseStrChars fuel rest).map (fun p => (c :: p.1, p.2))

/-- Optional exponent part of a JSON number literal. -/
def parseExpPart (s : List Char) : List Char × List Char :=
  match s with
  | c :: r =>
    if c == 'e' || c == 'E' then
      match r with
      | sgn :: r2 =>
        if sgn == '+' || sgn == '-' then
          let ds := r2.takeWhile Char.isDigit
          if ds.isEmpty then ([], s) else (c :: sgn :: ds, r2.dropWhile Char.isDigit)
        else
          let ds := r.takeWhile Char.isDigit
          if ds.isEmpty then ([], s) else (c :: ds, r.dropWhile Char.isDigit)
      | [] => ([], s)
    else ([], s)
  | [] => ([], s)

/-- Lex a JSON number literal, keeping its source text.  (A malformed tail
such as `1.x` lexes the longest valid head; the leftover then makes the
enclosing parse fail, as `json.loads` would.) -/
def parseNumLex (s : List Char) : Option (String × List Char) :=
  let sgn : List Char × List Char :=
    match s with
    | c :: r => if c == '-' then (['-'], r) else ([], s)
    | [] => ([], s)
  let s1 := sgn.2
  let int := s1.takeWhile Char.isDigit
  let s2 := s1.dropWhile Char.isDigit
  if int.isEmpty then none
  else
    let frac : List Char × List Char :=
      match s2 with
      | c :: r =>
        if c == '.' then
          let ds := r.takeWhile Char.isDigit
          if ds.isEmpty then ([], s2) else ('.' :: ds, r.dropWhile Char.isDigit)
        else ([], s2)
      | [] => ([], s2)
    let ex := parseExpPart frac.2
    some (String.mk (sgn.1 ++ int ++ frac.1 ++ ex.1), ex.2)

mutual

/-- Fuel-indexed recursive-descent parser for one JSON value, modelling
Python `json.loads` on the JSON subset the pipeline exchanges. -/
def parseVal : Nat → List Char → Option (Json × List Char)
  | 0, _ => none
  | fuel + 1, s0 =>
    let s := skipWs s0
    if leadsWith ['n', 'u', 'l', 'l'] s then some (.null, s.drop 4)
    else if leadsWith ['t', 'r', 'u', 'e'] s then some (.bool true, s.drop 4)
    else if leadsWith ['f', 'a', 'l', 's', 'e'] s then some (.bool false, s.drop 5)
    else
      match s with
      | [] => none
      | c :: rest =>
        if c == '"' then
          (parseStrChars fuel rest).map (fun p => (Json.str (String.mk p.1), p.2))
        else if c == '[' then
          let r := skipWs rest
          match r with
          | ']' :: r2 => some (.arr [], r2)
          | _ => (parseArrTail fuel r).map (fun p => (Json.arr p.1, p.2))
        else if c == lbrace then
          let r := skipWs rest
          match r with
          | d :: _ =>
            if d == rbrace then some (.obj [], r.drop 1)
            else (parseObjTail fuel r).map (fun p => (Json.obj p.1, p.2))
          | [] => none
        else (parseNumLex s).map (fun p => (Json.num p.1, p.2))

/-- Elements of a JSON array after the opening `[` (nonempty case). -/
def parseArrTail : Nat → List Char → Option (List Json × List Char)
  | 0, _ => none
  | fuel + 1, s =>
    match parseVal fuel s with
    | none => none
    | some (v, r) =>
      let r2 := skipWs r
      match r2 with
      | ',' :: r3 => (parseArrTail fuel r3).map (fun p => (v :: p.1, p.2))
      | ']' :: r3 => some ([v], r3)
      | _ => none

/-- Fields of a JSON object after the opening brace (nonempty case). -/
def parseObjTail : Nat → List Char → Option (List (String × Json) × List Char)
  | 0, _ => none
  | fuel + 1, s0 =>
    let s := skipWs s0
    match s with
    | c :: rest =>
      if c == '"' then
        match parseStrChars fuel rest with
        | none => none
        | some (kcs, r) =>
          match skipWs r with
          | ':' :: r2 =>
            match parseVal fuel r2 with
            | none => none
            | some (v, r3) =>
              match skipWs r3 with
              | ',' :: r4 => (parseObjTail fuel r4).map (fun p => ((String.mk kcs, v) :: p.1, p.2))
              | d :: r4 => if d == rbrace then some ([(String.mk kcs, v)], r4) else none
              | [] => none
          | _ => none
      else none
    | [] => none

end

/-- Python `json.loads`: parse one JSON document, requiring only trailing
whitespace after it. -/
def jsonLoads (s : String) : Option Json :=
  match parseVal (2 * s.length + 4) s.data with
  | some (v, rest) => if (skipWs rest).isEmpty then some v else none
  | none => none

/-- First-field lookup in a parsed JSON object (Python `d[key]`). -/
def jlookup (k : String) : List (String × Json) → Option Json
  | [] => none
  | (k2, v) :: rest => if k2 = k then some v else jlookup k rest

/-- The array-extraction step of `process_batch_async` (source lines
615-619): `json_start = response.find('[')`, `json_end =
response.rfind(']') + 1`, and the guard `json_start >= 0 and json_end >
json_start`; on success the slice `response[json_start:json_end]`. -/
def extractArraySub (response : String) : Option String :=
  match pyFind '[' response.data, pyRfind ']' response.data with
  | some js, some je =>
    if js < je + 1 then some (String.mk (pySlice response.data js (je + 1))) else none
  | _, _ => none

/-- The parsing tail of `process_batch_async` (source lines 614-624):
extract the bracketed substring, `json.loads` it, return the list on
success (`results if isinstance(results, list) else []`); a missing
bracket pair falls off the `try` (implicit `None`) and a
`json.JSONDecodeError` is caught and returns `None`. -/
def processBatchParse (response : String) : Option (List Json) :=
  match extractArraySub response with
  | none => none
  | some sub =>
    match jsonLoads sub with
    | none => none
    | some (Json.arr xs) => some xs
    | some _ => some []

/-- `process_batch_async` from the client's reply onward: `if not
response: return None` (both a `None` reply and an empty string are falsy
in Python), otherwise parse. -/
def processBatchResult (resp : Option String) : Option (List Json) :=
  match resp with
  | none => none
  | some t => if t.isEmpty then none else processBatchParse t

/-- One patent work item, as produced by `_load_patents_from_excel`.
Fields that only feed prompt text (titles, abstracts, IPC class, tech
domain) are omitted; the claims touch only the key and the entity
sources. -/
structure Patent where
  patentId : String
  applicants : List String
  currentOwners : List String

/-- One entity work item (`_extract_entities_from_patents` dict values). -/
structure Entity where
  normalizedName : String
  name : String
  typ : String
  deriving DecidableEq

/-- The suffix list of `_normalize_entity_name`, in source order. -/
def commonSuffixes : List String :=
  ["有限责任公司", "股份有限公司", "有限公司",
   "Co.,Ltd.", "Co., Ltd.", "Co.,Ltd", "Co., Ltd",
   "Ltd.", "Ltd", "Inc.", "Inc", "Corp.", "Corp",
   "LIMITED", "CORPORATION", "INCORPORATED"]

/-- Python `str.strip()`: drop leading and trailing whitespace. -/
def pyStrip (s : String) : String :=
  String.mk (((s.data.dropWhile Char.isWhitespace).reverse.dropWhile
    Char.isWhitespace).reverse)

/-- Python `s.endswith(suf)`. -/
def pyEndsWith (s suf : String) : Bool :=
  leadsWith suf.data.reverse s.data.reverse

/-- Python `s[:-n]` for `0 < n ≤ len(s)`: drop the last `n` characters. -/
def pyDropRight (s : String) (n : Nat) : String :=
  String.mk (s.data.take (s.data.length - n))

/-- The `for suffix in common_suffixes: if name.endswith(suffix): ...;
break` loop: strip the first matching suffix and re-strip whitespace. -/
def removeFirstSuffix : List String → String → String
  | [], name => name
  | suf :: rest, name =>
    if pyEndsWith name suf then pyStrip (pyDropRight name suf.length)
    else removeFirstSuffix rest name

/-- The bracket characters removed by the second `re.sub`. -/
def bracketChars : List Char :=
  ['（', '）', '(', ')', '【', '】', '[', ']', '《', '》', '<', '>']

/-- `_normalize_entity_name` on a string input (the `pd.isna` guard
concerns missing spreadsheet cells, which never reach the entity lists).
Python `str.strip` is modelled by `String.trim`, `re.sub(r"\s+", "")` by
dropping whitespace characters. -/
def normalizeEntityName (s : String) : Option String :=
  let name := pyStrip s
  if name.data.length < 2 then none
  else
    let original := name
    let n1 := removeFirstSuffix commonSuffixes name
    if n1.data.isEmpty || n1.data.length < 2 then some original
    else
      let n2 := String.mk (n1.data.filter (fun c => !c.isWhitespace))
      let n3 := String.mk (n2.data.filter (fun c => !(bracketChars.contains c)))
      if !n3.data.isEmpty && n3.data.length ≥ 2 then some n3 else some original

/-- The coarse type tag: `'企业' if any(x in raw for x in ['公司',
'Corp', 'Ltd', 'Inc']) else '个人/其他'`. -/
def entityKindLabel (raw : String) : String :=
  if strContains raw "公司" || strContains raw "Corp" ||
     strContains raw "Ltd" || strContains raw "Inc" then "企业" else "个人/其他"

/-- The dict entry built for a raw entity string with normalized name
`norm`. -/
def mkEntity (raw norm : String) : Entity :=
  ⟨norm, raw, entityKindLabel raw⟩

/-- Python `k in entities_dict`: key membership. -/
def dictHasKey (k : String) (d : List (String × Entity)) : Bool :=
  d.any (fun p => p.1 == k)

/-- `entities_dict[k] = v` guarded by `k not in entities_dict`: Python
dicts keep insertion order, so an absent key is appended at the end. -/
def dictInsertIfAbsent (k : String) (v : Entity)
    (d : List (String × Entity)) : List (String × Entity) :=
  if dictHasKey k d then d else d ++ [(k, v)]

/-- One loop body of `_extract_entities_from_patents`: normalize a raw
applicant/owner string and insert it if the name is new.  A falsy
(`None`) normalization is skipped; a successful normalization is never
the empty string (it always has length ≥ 2), so truthiness is `isSome`. -/
def entStep (d : List (String × Entity)) (raw : String) : List (String × Entity) :=
  match normalizeEntityName raw with
  | none => d
  | some k => dictInsertIfAbsent k (mkEntity raw k) d

/-- `_extract_entities_from_patents`, dict part: for each patent, first
the applicants loop, then the current-owners loop. -/
def extractEntitiesDict (patents : List Patent) : List (String × Entity) :=
  patents.foldl
    (fun d p => p.currentOwners.foldl entStep (p.applicants.foldl entStep d)) []

/-- `list(entities_dict.values())` in insertion order. -/
def extractEntities (patents : List Patent) : List Entity :=
  (extractEntitiesDict patents).map Prod.snd

/-- The raw applicant/owner strings in exactly the traversal order of
`_extract_entities_from_patents`. -/
def rawEntityStrings (patents : List Patent) : List String :=
  patents.flatMap (fun p => p.applicants ++ p.currentOwners)

/-- First-match association lookup (`entities_dict[k]` access order). -/
def dlookup (k : String) (d : List (String × Entity)) : Option Entity :=
  (d.find? (fun p => p.1 == k)).map Prod.snd

theorem dlookup_append (k : String) (d₁ d₂ : List (String × Entity)) :
    dlookup k (d₁ ++ d₂) = (dlookup k d₁).or (dlookup k d₂) := by
  unfold dlookup
  rw [List.find?_append]
  cases List.find? (fun p => p.1 == k) d₁ <;> simp

theorem dlookup_hasKey_false {k : String} {d : List (String × Entity)}
    (h : dictHasKey k d = false) : dlookup k d = none := by
  unfold dlookup
  have hn : List.find? (fun q => q.1 == k) d = none := by
    rw [List.find?_eq_none]
    intro p hp
    exact List.any_eq_false.1 (show d.any (fun q => q.1 == k) = false from h) p hp
  rw [hn]
  rfl

theorem dlookup_hasKey_true {k : String} {d : List (String × Entity)}
    (h : dictHasKey k d = true) : ∃ w, dlookup k d = some w := by
  simp only [dictHasKey, List.any_eq_true] at h
  obtain ⟨p, hp, hb⟩ := h
  unfold dlookup
  have hs : (List.find? (fun p => p.1 == k) d).isSome :=
    List.find?_isSome.2 ⟨p, hp, hb⟩
  obtain ⟨q, hq⟩ := Option.isSome_iff_exists.1 hs
  exact ⟨q.2, by rw [hq]; rfl⟩

theorem dlookup_singleton_self (k : String) (v : Entity) :
    dlookup k [(k, v)] = some v := by
  simp [dlookup, List.find?_cons]

theorem dlookup_insert_self (k : String) (v : Entity) (d : List (String × Entity)) :
    dlookup k (dictInsertIfAbsent k v d) = (dlookup k d).or (some v) := by
  unfold dictInsertIfAbsent
  cases h : dictHasKey k d with
  | true =>
    obtain ⟨w, hw⟩ := dlookup_hasKey_true h
    simp [hw]
  | false =>
    rw [if_neg (by simp [h]), dlookup_append, dlookup_hasKey_false h,
      dlookup_singleton_self]

theorem dlookup_insert_ne (k k2 : String) (hne : k2 ≠ k) (v : Entity)
    (d : List (String × Entity)) :
    dlookup k (dictInsertIfAbsent k2 v d) = dlookup k d := by
  unfold dictInsertIfAbsent
  cases h : dictHasKey k2 d with
  | true => rw [if_pos (by simp [h])]
  | false =>
    rw [if_neg (by simp [h]), dlookup_append]
    have : dlookup k [(k2, v)] = none := by
      simp [dlookup, List.find?_cons, hne]
    rw [this]
    cases dlookup k d <;> rfl

/-! ## Durable store (`JSONStorage`) -/

/-- The four data kinds of `JSONStorage.files`. -/
inductive DataKind where
  | green
  | tech
  | entityLocations
  | progress
  deriving DecidableEq

/-- In-memory collections (`self.data`): three result lists plus the
progress ledger's two key lists.  The ledger's `last_update` timestamp
and `session_id` fields are not modelled (no claim depends on them). -/
structure MemData where
  green : List Json
  tech : List Json
  entityLocations : List Json
  progressPatents : List Json
  progressEntities : List Json

/-- Persisted files, one slot per kind; `none` is an absent file.  File
contents are kept structured: `json.dump`/`json.load` round-trips the
structured value, and the byte-level crash behaviour of `_save_json` is
modelled separately by `FsFile` below. -/
structure Disk where
  green : Option (List Json)
  tech : Option (List Json)
  entityLocations : Option (List Json)
  progress : Option (List Json × List Json)

/-- A `JSONStorage` instance: in-memory data plus its persisted files. -/
structure Store where
  mem : MemData
  disk : Disk

/-- `_load_json` for every kind, then the constructor's defaulting: an
absent (or, in the byte-level world, unparsable) file yields an empty
list, and an absent progress file yields the empty ledger. -/
def loadMem (d : Disk) : MemData :=
  { green := d.green.getD []
    tech := d.tech.getD []
    entityLocations := d.entityLocations.getD []
    progressPatents := (d.progress.map Prod.fst).getD []
    progressEntities := (d.progress.map Prod.snd).getD [] }

/-- Opening a `JSONStorage` over existing files. -/
def loadStore (d : Disk) : Store :=
  ⟨loadMem d, d⟩

/-- `_save_json(kind)`: persist the full in-memory collection for the
kind.  This is the end state of the temp-file-plus-rename sequence; the
intermediate crash states of that sequence are modelled by `saveSteps`
below. -/
def saveJson (k : DataKind) (st : Store) : Store :=
  match k with
  | .green => { st with disk := { st.disk with green := some st.mem.green } }
  | .tech => { st with disk := { st.disk with tech := some st.mem.tech } }
  | .entityLocations =>
    { st with disk := { st.disk with entityLocations := some st.mem.entityLocations } }
  | .progress =>
    { st with disk := { st.disk with
        progress := some (st.mem.progressPatents, st.mem.progressEntities) } }

/-- `JSONStorage.append_data(data_type, items)`: the `'progress'` branch
dispatches on `str(items)` substring matches (`'patents' in str(items)`,
`elif 'entities' in str(items)`, otherwise nothing is added); every other
kind extends its list.  `_save_json` runs in every case.  The
`threading.Lock` serialises these mutations; the model's store-passing is
that serialisation. -/
def appendData (k : DataKind) (items : List Json) (st : Store) : Store :=
  match k with
  | .progress =>
    let m := st.mem
    let m2 :=
      if strContains (pyStrList items) "patents" then
        { m with progressPatents := m.progressPatents ++ items }
      else if strContains (pyStrList items) "entities" then
        { m with progressEntities := m.progressEntities ++ items }
      else m
    saveJson .progress { st with mem := m2 }
  | .green =>
    saveJson .green { st with mem := { st.mem with green := st.mem.green ++ items } }
  | .tech =>
    saveJson .tech { st with mem := { st.mem with tech := st.mem.tech ++ items } }
  | .entityLocations =>
    saveJson .entityLocations
      { st with mem := { st.mem with entityLocations := st.mem.entityLocations ++ items } }

/-- `mark_processed_patents(patent_ids)`: extend the ledger and persist
(the `last_update` stamp is not modelled). -/
def markProcessedPatents (ids : List String) (st : Store) : Store :=
  saveJson .progress
    { st with mem := { st.mem with
        progressPatents := st.mem.progressPatents ++ ids.map Json.str } }

/-- `mark_processed_entities(entity_names)`. -/
def markProcessedEntities (names : List String) (st : Store) : Store :=
  saveJson .progress
    { st with mem := { st.mem with
        progressEntities := st.mem.progressEntities ++ names.map Json.str } }

/-- `is_patent_processed`: Python `in` on the loaded ledger list. -/
def isPatentProcessed (st : Store) (pid : String) : Bool :=
  jmem (Json.str pid) st.mem.progressPatents

/-- `is_entity_processed`. -/
def isEntityProcessed (st : Store) (name : String) : Bool :=
  jmem (Json.str name) st.mem.progressEntities

/-! ## Crash behaviour of `_save_json` (`FsFile`) -/

/-- The two paths `_save_json` touches for one kind: the target file and
its `.tmp` sibling. -/
structure FsFile where
  main : Option String
  temp : Option String
  deriving DecidableEq

/-- The three filesystem operations of `_save_json`, in source order:
write the serialized collection to `filepath + '.tmp'`, then
`os.remove(filepath)` (guarded by `os.path.exists`), then
`os.rename(temp_filepath, filepath)`. -/
inductive FsStep where
  | writeTemp (content : String)
  | removeMain
  | renameTempToMain

/-- Effect of one step.  `removeMain` on an absent file is the skipped
`os.remove` (same resulting state); `renameTempToMain` without a temp
file would raise in Python and cannot arise in the emitted sequence. -/
def applyFsStep (fs : FsFile) : FsStep → FsFile
  | .writeTemp c => { fs with temp := some c }
  | .removeMain => { fs with main := none }
  | .renameTempToMain =>
    match fs.temp with
    | some c => { main := some c, temp := none }
    | none => fs

/-- The operation sequence `_save_json` performs for one kind, with
`content` the serialization of the full in-memory collection. -/
def saveSteps (content : String) : List FsStep :=
  [.writeTemp content, .removeMain, .renameTempToMain]

/-- Run a sequence of filesystem steps; a crash after `k` completed steps
leaves the state `runFsSteps fs (steps.take k)`. -/
def runFsSteps (fs : FsFile) (steps : List FsStep) : FsFile :=
  steps.foldl applyFsStep fs

/-! ## Rate-limited async client (`call_llm_async`) -/

/-- What the environment does to one HTTP attempt: a reply with a status
code, a measured elapsed time and (for 200-replies) the
`choices[0].message.content` text; or an `asyncio.TimeoutError`; or any
other exception raised before the elapsed time is recorded (connection
errors, and also a 200 reply whose envelope fails to decode —
`response.json()`/key access raise inside the same `try`). -/
inductive Outcome where
  | reply (status : Nat) (elapsed : Nat) (content : String)
  | timeout
  | exn
  deriving DecidableEq

/-- The generator's `self.stats` counters (`total_time` in abstract time
units). -/
structure Stats where
  total_requests : Nat
  successful_requests : Nat
  failed_requests : Nat
  retries : Nat
  total_time : Nat
  deriving DecidableEq

/-- All-zero counters (process start). -/
def Stats.zero : Stats :=
  ⟨0, 0, 0, 0, 0⟩

/-- The observable result of one `call_llm_async` invocation: the value
returned to the caller, the final counters, the outcomes of the HTTP
attempts made (in order), and the `asyncio.sleep` durations taken before
each retry (in order). -/
structure CallOut where
  retval : Option String
  stats : Stats
  attempts : List Outcome
  delays : List Nat
  deriving DecidableEq

/-- `call_llm_async(session, prompt, retry_count)` with the attempt
outcomes supplied by the oracle `out` (indexed by `retry_count`).  The
semaphore gate, URL and payload construction are not modelled; the
counter updates follow the source lines exactly: `total_requests`
increments first on every attempt, `total_time` accumulates as soon as a
reply arrives (before the status test), and the three failure branches
share the `retry_count < max_retries` / `sleep(retry_delay *
(retry_count + 1))` / recursive-call pattern, returning `None` after the
last retry.  A 200 reply returns `content.strip()`. -/
def callLLM (maxRetries retryDelay : Nat) (out : Nat → Outcome)
    (rc : Nat) (s : Stats) : CallOut :=
  let o := out rc
  let s1 := { s with total_requests := s.total_requests + 1 }
  match o with
  | .reply status elapsed content =>
    let s2 := { s1 with total_time := s1.total_time + elapsed }
    if status = 200 then
      ⟨some content.trim,
       { s2 with successful_requests := s2.successful_requests + 1 }, [o], []⟩
    else if h : rc < maxRetries then
      let rest := callLLM maxRetries retryDelay out (rc + 1)
        { s2 with retries := s2.retries + 1 }
      ⟨rest.retval, rest.stats, o :: rest.attempts,
       retryDelay * (rc + 1) :: rest.delays⟩
    else
      ⟨none, { s2 with failed_requests := s2.failed_requests + 1 }, [o], []⟩
  | .timeout =>
    if h : rc < maxRetries then
      let rest := callLLM maxRetries retryDelay out (rc + 1)
        { s1 with retries := s1.retries + 1 }
      ⟨rest.retval, rest.stats, o :: rest.attempts,
       retryDelay * (rc + 1) :: rest.delays⟩
    else
      ⟨none, { s1 with failed_requests := s1.failed_requests + 1 }, [o], []⟩
  | .exn =>
    if h : rc < maxRetries then
      let rest := callLLM maxRetries retryDelay out (rc + 1)
        { s1 with retries := s1.retries + 1 }
      ⟨rest.retval, rest.stats, o :: rest.attempts,
       retryDelay * (rc + 1) :: rest.delays⟩
    else
      ⟨none, { s1 with failed_requests := s1.failed_requests + 1 }, [o], []⟩
termination_by maxRetries + 1 - rc
decreasing_by all_goals omega

/-- HTTP-failure-equivalent status, timeout, or transport exception: the
attempt outcomes the retry logic reacts to. -/
def isTransportFail : Outcome → Bool
  | .reply status _ _ => !(status == 200)
  | .timeout => true
  | .exn => true

/-- Elapsed time added to `total_time` by one attempt: a reply's elapsed
time regardless of status (line 409 runs before the status test), nothing
for an attempt that raised. -/
def httpElapsed : Outcome → Nat
  | .reply _ e _ => e
  | .timeout => 0
  | .exn => 0

/-! ## Batch orchestrator (`AsyncLLMGenerator.process_patents_async` /
`process_entities_async`) -/

/-- `LLM_ENHANCE_CONFIG` fields the orchestrator reads, with the values
shipped in `config.py`. -/
structure EnhanceConfig where
  batch_size : Nat
  max_concurrent : Nat
  enable_green : Bool
  enable_tech : Bool
  enable_location : Bool
  max_retries : Nat
  retry_delay : Nat

/-- The configuration shipped in `config.py` (`LLM_ENHANCE_CONFIG`). -/
def shippedConfig : EnhanceConfig :=
  ⟨10, 5, true, true, true, 3, 3⟩

/-- `get_unprocessed_patents` scan: keep items whose key is not in the
ledger, and `break` once the accumulated count reaches `limit` (the test
runs after the append, so `limit = 0` still yields the first item, as in
the source). -/
def guPatents (proc : List Json) (limit : Nat) : List Patent → Nat → List Patent
  | [], _ => []
  | p :: ps, cnt =>
    if jmem (Json.str p.patentId) proc then guPatents proc limit ps cnt
    else if limit ≤ cnt + 1 then [p]
    else p :: guPatents proc limit ps (cnt + 1)

/-- `get_unprocessed_patents(limit)`. -/
def getUnprocessedPatents (all : List Patent) (st : Store) (limit : Nat) : List Patent :=
  guPatents st.mem.progressPatents limit all 0

/-- `get_unprocessed_entities` scan (same shape, keyed by normalized
name). -/
def guEntities (proc : List Json) (limit : Nat) : List Entity → Nat → List Entity
  | [], _ => []
  | e :: es, cnt =>
    if jmem (Json.str e.normalizedName) proc then guEntities proc limit es cnt
    else if limit ≤ cnt + 1 then [e]
    else e :: guEntities proc limit es (cnt + 1)

/-- `get_unprocessed_entities(limit)`. -/
def getUnprocessedEntities (all : List Entity) (st : Store) (limit : Nat) : List Entity :=
  guEntities st.mem.progressEntities limit all 0

/-- The enabled enrichment task types of the patent cycle. -/
inductive TaskType where
  | green
  | tech
  | location
  deriving DecidableEq

/-- The `(task_type, patent_ids, coroutine)` triples built in the
dispatch phase: for each `batch_size` chunk of the fetched list, a green
task if enabled, then a tech task if enabled.  (The coroutine's response
is supplied later by the oracle, keyed by task position.) -/
def cycleTasks (greenOn techOn : Bool) (bs : Nat) (fetched : List Patent) :
    List (TaskType × List String) :=
  (chunksBy bs fetched).flatMap (fun chunk =>
    let ids := chunk.map Patent.patentId
    (if greenOn then [(TaskType.green, ids)] else []) ++
    (if techOn then [(TaskType.tech, ids)] else []))

/-- The per-task persist step: `if result and not isinstance(result,
Exception)` — a `None` reply, a parse failure, a gathered exception, and
also an *empty* parsed list (falsy in Python) are all skipped; otherwise
the records are appended to the task's result kind. -/
def persistTask (st : Store) (tt : TaskType) (res : Option (List Json)) : Store :=
  match res with
  | none => st
  | some xs =>
    if xs.isEmpty then st
    else
      match tt with
      | .green => appendData .green xs st
      | .tech => appendData .tech xs st
      | .location => appendData .entityLocations xs st

/-- One full patent fetch cycle after the fetch (dispatch, await,
persist, mark): `resp i` is the raw text the async client returned for
the `i`-th task (`None` for an exhausted-retries failure; a gathered
exception behaves the same in the persist guard).  All fetched keys are
deduplicated (`list(set(...))`; set order is unspecified, and every
property proved below is order-independent) and marked processed.
Returns the new store and the number of API tasks dispatched. -/
def runPatentCycle (greenOn techOn : Bool) (bs : Nat) (resp : Nat → Option String)
    (fetched : List Patent) (st : Store) : Store × Nat :=
  let tasks := cycleTasks greenOn techOn bs fetched
  let st1 := tasks.enum.foldl
    (fun s it => persistTask s it.2.1 (processBatchResult (resp it.1))) st
  let marked := (tasks.flatMap (fun t => t.2)).dedup
  (markProcessedPatents marked st1, tasks.length)

/-- The cooperative stop flag as a function of time: `should_stop` starts
`False` in `__init__`, and the only other write in the program is the
signal handler's `self.should_stop = True`.  `arrive n` says a signal was
delivered between loop check `n - 1` and loop check `n` (or before check
0 for `n = 0`); the flag read at check `n` is the disjunction of all
arrivals so far. -/
def flagAt (arrive : Nat → Bool) : Nat → Bool
  | 0 => arrive 0
  | n + 1 => flagAt arrive n || arrive (n + 1)

/-- Loop outcome: final store, number of completed cycles, number of API
tasks dispatched. -/
structure LoopOut where
  store : Store
  cycles : Nat
  calls : Nat

/-- The `while not self.should_stop` loop of `process_patents_async`:
check the flag, fetch up to `batch_size * max_concurrent` unprocessed
patents, stop when none remain, otherwise run one full cycle.  `resp n i`
is the reply to task `i` of cycle `n`; `fuel` bounds the number of loop
iterations the model unrolls (each theorem below holds for every fuel).
The flag argument threads the value read at the previous check, mirroring
the mutable `self.should_stop`. -/
def runPatentLoopAux (greenOn techOn : Bool) (bs limit : Nat)
    (resp : Nat → Nat → Option String) (arrive : Nat → Bool) (all : List Patent) :
    Nat → Nat → Bool → Store → LoopOut
  | 0, _, _, st => ⟨st, 0, 0⟩
  | fuel + 1, n, flag, st =>
    let flag2 := flag || arrive n
    if flag2 then ⟨st, 0, 0⟩
    else
      let fetched := getUnprocessedPatents all st limit
      if fetched.isEmpty then ⟨st, 0, 0⟩
      else
        let step := runPatentCycle greenOn techOn bs (resp n) fetched st
        let out := runPatentLoopAux greenOn techOn bs limit resp arrive all fuel (n + 1) flag2 step.1
        ⟨out.store, out.cycles + 1, out.calls + step.2⟩

/-- `process_patents_async` entry: loop from cycle 0 with the flag as
initialised in `__init__`. -/
def runPatentLoop (greenOn techOn : Bool) (bs limit : Nat)
    (resp : Nat → Nat → Option String) (arrive : Nat → Bool) (all : List Patent)
    (fuel : Nat) (st : Store) : LoopOut :=
  runPatentLoopAux greenOn techOn bs limit resp arrive all fuel 0 false st

/-- `k` complete fetch-dispatch-persist-mark cycles starting at cycle
index `n`: the reference iteration the loop is compared against. -/
def iterPatentCycles (greenOn techOn : Bool) (bs limit : Nat)
    (resp : Nat → Nat → Option String) (all : List Patent) :
    Nat → Nat → Store → Store
  | 0, _, st => st
  | k + 1, n, st =>
    let fetched := getUnprocessedPatents all st limit
    iterPatentCycles greenOn techOn bs limit resp all k (n + 1)
      (runPatentCycle greenOn techOn bs (resp n) fetched st).1

/-- The entity batch size hardcoded in `process_entities_async`. -/
def entityBatchSize : Nat := 10

/-- One entity fetch cycle: the inner `for` loop submits each 10-entity
batch, appends a truthy location result, and marks the batch's names
processed — with no stop-flag check inside the `for`.  Returns the new
store and the number of API tasks dispatched. -/
def runEntityCycle (resp : Nat → Option String) (fetched : List Entity)
    (st : Store) : Store × Nat :=
  let batches := chunksBy entityBatchSize fetched
  let st1 := batches.enum.foldl
    (fun s it =>
      let s1 := persistTask s .location (processBatchResult (resp it.1))
      markProcessedEntities (it.2.map Entity.normalizedName) s1) st
  (st1, batches.length)

/-- The `while not self.should_stop` loop of `process_entities_async`
(fetch limit `batch_size * 10 = 100`). -/
def runEntityLoopAux (resp : Nat → Nat → Option String) (arrive : Nat → Bool)
    (all : List Entity) : Nat → Nat → Bool → Store → LoopOut
  | 0, _, _, st => ⟨st, 0, 0⟩
  | fuel + 1, n, flag, st =>
    let flag2 := flag || arrive n
    if flag2 then ⟨st, 0, 0⟩
    else
      let fetched := getUnprocessedEntities all st (entityBatchSize * 10)
      if fetched.isEmpty then ⟨st, 0, 0⟩
      else
        let step := runEntityCycle (resp n) fetched st
        let out := runEntityLoopAux resp arrive all fuel (n + 1) flag2 step.1
        ⟨out.store, out.cycles + 1, out.calls + step.2⟩

/-- `process_entities_async` entry: `if not
LLM_ENHANCE_CONFIG['enable_location_extraction']: return` guards the
loop. -/
def runEntityLoop (locOn : Bool) (resp : Nat → Nat → Option String)
    (arrive : Nat → Bool) (all : List Entity) (fuel : Nat) (st : Store) : LoopOut :=
  if locOn then runEntityLoopAux resp arrive all fuel 0 false st else ⟨st, 0, 0⟩

/-! ## Helper lemmas -/

/-- Does raw string `r` normalize to name `n`? -/
def matchesName (n : String) (r : String) : Bool :=
  normalizeEntityName r == some n

/-- Folding `entStep` over a flat list of raw strings. -/
def entFold (d : List (String × Entity)) (raws : List String) : List (String × Entity) :=
  raws.foldl entStep d

theorem entFold_append (d : List (String × Entity)) (r₁ r₂ : List String) :
    entFold d (r₁ ++ r₂) = entFold (entFold d r₁) r₂ :=
  List.foldl_append entStep d r₁ r₂

theorem extractEntitiesDict_eq_entFold (patents : List Patent) :
    extractEntitiesDict patents = entFold [] (rawEntityStrings patents) := by
  suffices h : ∀ (ps : List Patent) (d : List (String × Entity)),
      ps.foldl (fun d p => p.currentOwners.foldl entStep (p.applicants.foldl entStep d)) d
        = entFold d (rawEntityStrings ps) by
    exact h patents []
  intro ps
  induction ps with
  | nil => intro d; rfl
  | cons p ps ih =>
    intro d
    have hr : rawEntityStrings (p :: ps)
        = (p.applicants ++ p.currentOwners) ++ rawEntityStrings ps :=
      List.flatMap_cons p ps _
    rw [List.foldl_cons, ih, hr, entFold_append, entFold_append]
    rfl

theorem dlookup_entFold (n : String) :
    ∀ (raws : List String) (d : List (String × Entity)),
      dlookup n (entFold d raws)
        = (dlookup n d).or (((raws.find? (matchesName n)).map (fun r => mkEntity r n)))
  | [], d => by
    have h0 : (List.find? (matchesName n) ([] : List String)).map
        (fun r => mkEntity r n) = none := rfl
    rw [h0, Option.or_none]
    rfl
  | r :: raws, d => by
    have ih := dlookup_entFold n raws
    show dlookup n (entFold (entStep d r) raws) = _
    cases hnr : normalizeEntityName r with
    | none =>
      have hstep : entStep d r = d := by unfold entStep; rw [hnr]
      have hm : matchesName n r = false := by simp [matchesName, hnr]
      rw [hstep, ih, List.find?_cons, hm]
    | some k =>
      have hstep : entStep d r = dictInsertIfAbsent k (mkEntity r k) d := by
        unfold entStep; rw [hnr]
      by_cases hk : k = n
      · subst hk
        have hm : matchesName k r = true := by simp [matchesName, hnr]
        rw [hstep, ih, List.find?_cons, hm, dlookup_insert_self, Option.or_assoc]
        rfl
      · have hm : matchesName n r = false := by simp [matchesName, hnr, hk]
        rw [hstep, ih, List.find?_cons, hm, dlookup_insert_ne n k hk]

theorem dictInsertIfAbsent_keysNodup (k : String) (v : Entity)
    (d : List (String × Entity)) (h : (d.map Prod.fst).Nodup) :
    ((dictInsertIfAbsent k v d).map Prod.fst).Nodup := by
  unfold dictInsertIfAbsent
  cases hk : dictHasKey k d with
  | true => rw [if_pos (by simp [hk])]; exact h
  | false =>
    rw [if_neg (by simp [hk]), List.map_append]
    rw [List.nodup_append]
    refine ⟨h, List.nodup_singleton k, ?_⟩
    intro x hx hx1
    simp only [List.map_cons, List.map_nil, List.mem_singleton] at hx1
    subst hx1
    obtain ⟨pr, hpr, hfst⟩ := List.mem_map.1 hx
    have := List.any_eq_false.1 (show d.any (fun p => p.1 == x) = false from hk) pr hpr
    simp [hfst] at this

theorem entFold_keysNodup :
    ∀ (raws : List String) (d : List (String × Entity)),
      (d.map Prod.fst).Nodup → ((entFold d raws).map Prod.fst).Nodup
  | [], _, h => h
  | r :: raws, d, h => by
    show ((entFold (entStep d r) raws).map Prod.fst).Nodup
    apply entFold_keysNodup raws
    unfold entStep
    cases normalizeEntityName r with
    | none => exact h
    | some k => exact dictInsertIfAbsent_keysNodup k _ d h

theorem entFold_good :
    ∀ (raws : List String) (d : List (String × Entity)),
      (∀ pr ∈ d, pr.2.normalizedName = pr.1) →
      ∀ pr ∈ entFold d raws, pr.2.normalizedName = pr.1
  | [], _, h => h
  | r :: raws, d, h => by
    show ∀ pr ∈ entFold (entStep d r) raws, pr.2.normalizedName = pr.1
    apply entFold_good raws
    cases hnr : normalizeEntityName r with
    | none =>
      have hstep : entStep d r = d := by unfold entStep; rw [hnr]
      rw [hstep]
      exact h
    | some k =>
      have hstep : entStep d r = dictInsertIfAbsent k (mkEntity r k) d := by
        unfold entStep; rw [hnr]
      rw [hstep]
      unfold dictInsertIfAbsent
      cases hk : dictHasKey k d with
      | true =>
        rw [if_pos (by simp [hk])]
        exact h
      | false =>
        rw [if_neg (by simp [hk])]
        intro pr hpr
        rcases List.mem_append.1 hpr with hin | hone
        · exact h pr hin
        · rw [List.mem_singleton] at hone
          subst hone
          rfl

theorem dlookup_of_mem_nodup :
    ∀ (d : List (String × Entity)), (d.map Prod.fst).Nodup →
      ∀ pr ∈ d, dlookup pr.1 d = some pr.2
  | [], _, pr, hpr => absurd hpr (List.not_mem_nil pr)
  | q :: rest, hnd, pr, hpr => by
    rw [List.map_cons] at hnd
    have hcons := List.nodup_cons.1 hnd
    rcases List.mem_cons.1 hpr with rfl | hin
    · unfold dlookup
      rw [List.find?_cons]
      simp
    · have hne : q.1 ≠ pr.1 := by
        intro hEq
        exact (hEq ▸ hcons.1) (List.mem_map_of_mem Prod.fst hin)
      unfold dlookup
      rw [List.find?_cons]
      have hb : (q.1 == pr.1) = false := by simpa using hne
      simp only [hb]
      exact dlookup_of_mem_nodup rest hcons.2 pr hin

theorem guEntities_sublist (proc : List Json) (limit : Nat) :
    ∀ (l : List Entity) (cnt : Nat), (guEntities proc limit l cnt).Sublist l
  | [], _ => List.Sublist.refl []
  | e :: es, cnt => by
    unfold guEntities
    by_cases h1 : jmem (Json.str e.normalizedName) proc = true
    · rw [if_pos h1]
      exact (guEntities_sublist proc limit es cnt).cons e
    · rw [if_neg h1]
      by_cases h2 : limit ≤ cnt + 1
      · rw [if_pos h2]
        exact (List.nil_sublist es).cons₂ e
      · rw [if_neg h2]
        exact (guEntities_sublist proc limit es (cnt + 1)).cons₂ e

theorem guEntities_all_processed (proc : List Json) (limit : Nat) :
    ∀ (l : List Entity) (cnt : Nat),
      (∀ e ∈ l, jmem (Json.str e.normalizedName) proc = true) →
      guEntities proc limit l cnt = []
  | [], _, _ => rfl
  | e :: es, cnt, h => by
    unfold guEntities
    rw [if_pos (h e (List.mem_cons_self e es))]
    exact guEntities_all_processed proc limit es cnt
      (fun x hx => h x (List.mem_cons_of_mem e hx))

theorem guPatents_all_processed (proc : List Json) (limit : Nat) :
    ∀ (l : List Patent) (cnt : Nat),
      (∀ p ∈ l, jmem (Json.str p.patentId) proc = true) →
      guPatents proc limit l cnt = []
  | [], _, _ => rfl
  | p :: ps, cnt, h => by
    unfold guPatents
    rw [if_pos (h p (List.mem_cons_self p ps))]
    exact guPatents_all_processed proc limit ps cnt
      (fun x hx => h x (List.mem_cons_of_mem p hx))

theorem mem_guPatents_unprocessed (proc : List Json) (limit : Nat) :
    ∀ (l : List Patent) (cnt : Nat) (q : Patent),
      q ∈ guPatents proc limit l cnt → jmem (Json.str q.patentId) proc = false
  | [], _, q, hq => absurd hq (List.not_mem_nil q)
  | p :: ps, cnt, q, hq => by
    unfold guPatents at hq
    by_cases h1 : jmem (Json.str p.patentId) proc = true
    · rw [if_pos h1] at hq
      exact mem_guPatents_unprocessed proc limit ps cnt q hq
    · rw [if_neg h1] at hq
      by_cases h2 : limit ≤ cnt + 1
      · rw [if_pos h2, List.mem_singleton] at hq
        subst hq
        simpa using h1
      · rw [if_neg h2] at hq
        rcases List.mem_cons.1 hq with rfl | hin
        · simpa using h1
        · exact mem_guPatents_unprocessed proc limit ps (cnt + 1) q hin

theorem persistTask_progressPatents (st : Store) (tt : TaskType)
    (res : Option (List Json)) :
    (persistTask st tt res).mem.progressPatents = st.mem.progressPatents := by
  cases res with
  | none => rfl
  | some xs =>
    cases hxs : xs.isEmpty <;> cases tt <;>
      simp [persistTask, appendData, saveJson, hxs]

theorem persistFold_progressPatents
    (g : Nat × (TaskType × List String) → Option (List Json)) :
    ∀ (l : List (Nat × (TaskType × List String))) (st : Store),
      (l.foldl (fun s it => persistTask s it.2.1 (g it)) st).mem.progressPatents
        = st.mem.progressPatents
  | [], _ => rfl
  | it :: l, st => by
    rw [List.foldl_cons]
    rw [persistFold_progressPatents g l (persistTask st it.2.1 (g it))]
    exact persistTask_progressPatents st it.2.1 (g it)

/-- The flag value held when loop check `n` is reached (before or-ing in
the arrivals of the latest inter-check window). -/
def flagBefore (arrive : Nat → Bool) : Nat → Bool
  | 0 => false
  | n + 1 => flagAt arrive n

theorem flagBefore_or (arrive : Nat → Bool) (n : Nat) :
    (flagBefore arrive n || arrive n) = flagAt arrive n := by
  cases n with
  | zero => simp [flagBefore, flagAt]
  | succ n => rfl

theorem callLLM_allFail (mr d : Nat) (out : Nat → Outcome) :
    ∀ (fuel rc : Nat) (s : Stats), mr - rc = fuel → rc ≤ mr →
      (∀ k, rc ≤ k → k ≤ mr → isTransportFail (out k) = true) →
      (callLLM mr d out rc s).attempts.length = mr - rc + 1
      ∧ (callLLM mr d out rc s).delays
          = (List.range (mr - rc)).map (fun i => d * (rc + i + 1))
      ∧ (callLLM mr d out rc s).retval = none := by
  intro fuel
  induction fuel with
  | zero =>
    intro rc s hfuel hle hfail
    have hrc : rc = mr := by omega
    subst hrc
    have hf := hfail rc le_rfl le_rfl
    rw [callLLM]
    cases ho : out rc with
    | reply status e c =>
      rw [ho] at hf
      have hst : ¬ status = 200 := by simpa [isTransportFail] using hf
      dsimp only
      rw [if_neg hst, dif_neg (by omega)]
      simp [hfuel]
    | timeout =>
      dsimp only
      rw [dif_neg (by omega)]
      simp [hfuel]
    | exn =>
      dsimp only
      rw [dif_neg (by omega)]
      simp [hfuel]
  | succ fuel ih =>
    intro rc s hfuel hle hfail
    have hlt : rc < mr := by omega
    have hf := hfail rc le_rfl (by omega)
    have ihh := fun (s2 : Stats) => ih (rc + 1) s2 (by omega) (by omega)
      (fun k hk1 hk2 => hfail k (by omega) hk2)
    have hrange : mr - rc = (mr - (rc + 1)) + 1 := by omega
    rw [callLLM]
    cases ho : out rc with
    | reply status e c =>
      rw [ho] at hf
      have hst : ¬ status = 200 := by simpa [isTransportFail] using hf
      dsimp only
      rw [if_neg hst, dif_pos hlt]
      obtain ⟨ha, hd, hv⟩ := ihh _
      refine ⟨?_, ?_, hv⟩
      · simp only [List.length_cons, ha]
        omega
      · simp only [hd, hrange, List.range_succ_eq_map, List.map_cons, List.map_map]
        refine congrArg₂ _ (by ring) ?_
        apply List.map_congr_left
        intro i _
        show d * (rc + 1 + i + 1) = d * (rc + (i + 1) + 1)
        ring
    | timeout =>
      dsimp only
      rw [dif_pos hlt]
      obtain ⟨ha, hd, hv⟩ := ihh _
      refine ⟨?_, ?_, hv⟩
      · simp only [List.length_cons, ha]
        omega
      · simp only [hd, hrange, List.range_succ_eq_map, List.map_cons, List.map_map]
        refine congrArg₂ _ (by ring) ?_
        apply List.map_congr_left
        intro i _
        show d * (rc + 1 + i + 1) = d * (rc + (i + 1) + 1)
        ring
    | exn =>
      dsimp only
      rw [dif_pos hlt]
      obtain ⟨ha, hd, hv⟩ := ihh _
      refine ⟨?_, ?_, hv⟩
      · simp only [List.length_cons, ha]
        omega
      · simp only [hd, hrange, List.range_succ_eq_map, List.map_cons, List.map_map]
        refine congrArg₂ _ (by ring) ?_
        apply List.map_congr_left
        intro i _
        show d * (rc + 1 + i + 1) = d * (rc + (i + 1) + 1)
        ring

theorem callLLM_stats (mr d : Nat) (out : Nat → Outcome) :
    ∀ (fuel rc : Nat) (s : Stats), mr - rc = fuel →
      (callLLM mr d out rc s).stats.total_requests
          = s.total_requests + (callLLM mr d out rc s).attempts.length
      ∧ (callLLM mr d out rc s).stats.total_time
          = s.total_time + ((callLLM mr d out rc s).attempts.map httpElapsed).sum := by
  intro fuel
  induction fuel with
  | zero =>
    intro rc s hfuel
    have hge : ¬ rc < mr := by omega
    rw [callLLM]
    cases ho : out rc with
    | reply status e c =>
      dsimp only
      by_cases hst : status = 200
      · rw [if_pos hst]
        simp [httpElapsed]
      · rw [if_neg hst, dif_neg hge]
        simp [httpElapsed]
    | timeout =>
      dsimp only
      rw [dif_neg hge]
      simp [httpElapsed]
    | exn =>
      dsimp only
      rw [dif_neg hge]
      simp [httpElapsed]
  | succ fuel ih =>
    intro rc s hfuel
    have hlt : rc < mr := by omega
    rw [callLLM]
    cases ho : out rc with
    | reply status e c =>
      dsimp only
      by_cases hst : status = 200
      · rw [if_pos hst]
        simp [httpElapsed]
      · rw [if_neg hst, dif_pos hlt]
        obtain ⟨h1, h2⟩ := ih (rc + 1)
          { s with
              total_requests := s.total_requests + 1
              total_time := s.total_time + e
              retries := s.retries + 1 } (by omega)
        refine ⟨?_, ?_⟩
        · simp only [List.length_cons, h1]
          omega
        · simp only [List.map_cons, List.sum_cons, h2, httpElapsed]
          omega
    | timeout =>
      dsimp only
      rw [dif_pos hlt]
      obtain ⟨h1, h2⟩ := ih (rc + 1)
        { s with
            total_requests := s.total_requests + 1
            retries := s.retries + 1 } (by omega)
      refine ⟨?_, ?_⟩
      · simp only [List.length_cons, h1]
        omega
      · simp only [List.map_cons, List.sum_cons, h2, httpElapsed]
        omega
    | exn =>
      dsimp only
      rw [dif_pos hlt]
      obtain ⟨h1, h2⟩ := ih (rc + 1)
        { s with
            total_requests := s.total_requests + 1
            retries := s.retries + 1 } (by omega)
      refine ⟨?_, ?_⟩
      · simp only [List.length_cons, h1]
        omega
      · simp only [List.map_cons, List.sum_cons, h2, httpElapsed]
        omega

theorem mem_cycleTasks_ids (greenOn techOn : Bool) (bs : Nat)
    (fetched : List Patent) (pid : String)
    (henabled : greenOn = true ∨ techOn = true) (hbs : 0 < bs) :
    pid ∈ (cycleTasks greenOn techOn bs fetched).flatMap (fun tk => tk.2)
      ↔ pid ∈ fetched.map Patent.patentId := by
  unfold cycleTasks
  constructor
  · intro hmem
    obtain ⟨tk, htk, hpid⟩ := List.mem_flatMap.1 hmem
    obtain ⟨c, hc, htk2⟩ := List.mem_flatMap.1 htk
    have hids : tk.2 = c.map Patent.patentId := by
      rcases List.mem_append.1 htk2 with h | h
      · cases hg : greenOn
        · rw [hg] at h
          simp at h
        · rw [hg] at h
          rw [if_pos rfl, List.mem_singleton] at h
          rw [h]
      · cases ht : techOn
        · rw [ht] at h
          simp at h
        · rw [ht] at h
          rw [if_pos rfl, List.mem_singleton] at h
          rw [h]
    rw [hids] at hpid
    obtain ⟨p, hp, rfl⟩ := List.mem_map.1 hpid
    have hpf : p ∈ fetched := by
      rw [← chunksBy_flatten bs hbs fetched]
      exact List.mem_flatten.2 ⟨c, hc, hp⟩
    exact List.mem_map_of_mem Patent.patentId hpf
  · intro hmem
    obtain ⟨p, hp, rfl⟩ := List.mem_map.1 hmem
    rw [← chunksBy_flatten bs hbs fetched] at hp
    obtain ⟨c, hc, hpc⟩ := List.mem_flatten.1 hp
    apply List.mem_flatMap.2
    rcases henabled with hg | ht
    · refine ⟨(TaskType.green, c.map Patent.patentId), ?_, ?_⟩
      · exact List.mem_flatMap.2 ⟨c, hc, by simp [hg]⟩
      · exact List.mem_map_of_mem Patent.patentId hpc
    · refine ⟨(TaskType.tech, c.map Patent.patentId), ?_, ?_⟩
      · exact List.mem_flatMap.2 ⟨c, hc, by simp [ht]⟩
      · exact List.mem_map_of_mem Patent.patentId hpc

theorem runPatentLoopAux_spec (G T : Bool) (bs limit : Nat)
    (resp : Nat → Nat → Option String) (arrive : Nat → Bool) (all : List Patent) :
    ∀ (fuel n : Nat) (st : Store), ∃ k,
      runPatentLoopAux G T bs limit resp arrive all fuel n (flagBefore arrive n) st
          = ⟨iterPatentCycles G T bs limit resp all k n st, k,
             (runPatentLoopAux G T bs limit resp arrive all fuel n
               (flagBefore arrive n) st).calls⟩
      ∧ ∀ i, n ≤ i → i < n + k → flagAt arrive i = false := by
  intro fuel
  induction fuel with
  | zero =>
    intro n st
    exact ⟨0, rfl, fun i h1 h2 => absurd h2 (by omega)⟩
  | succ fuel ih =>
    intro n st
    rw [runPatentLoopAux]
    simp only [flagBefore_or]
    cases hfl : flagAt arrive n with
    | true =>
      simp only [if_pos rfl]
      exact ⟨0, rfl, fun i h1 h2 => absurd h2 (by omega)⟩
    | false =>
      simp only [Bool.false_eq_true, if_false]
      cases hfe : (getUnprocessedPatents all st limit).isEmpty with
      | true =>
        simp only [if_pos rfl]
        exact ⟨0, rfl, fun i h1 h2 => absurd h2 (by omega)⟩
      | false =>
        simp only [Bool.false_eq_true, if_false]
        obtain ⟨k, hout, hflags⟩ := ih (n + 1)
          (runPatentCycle G T bs (resp n) (getUnprocessedPatents all st limit) st).1
        have hfb2 : flagBefore arrive (n + 1) = false := hfl
        rw [hfb2] at hout
        refine ⟨k + 1, ?_, ?_⟩
        · rw [hout]
          rfl
        · intro i h1 h2
          by_cases hi : i = n
          · rw [hi]
            exact hfl
          · exact hflags i (by omega) (by omega)

/-- A shared helper for C2 and C4: the marking step of a patent cycle
extends the ledger by exactly the deduplicated fetched keys, whatever
each task's response was — the persist folds never touch the patent
ledger. -/
theorem runPatentCycle_progressPatents (greenOn techOn : Bool) (bs : Nat)
    (resp : Nat → Option String) (fetched : List Patent) (st : Store) :
    (runPatentCycle greenOn techOn bs resp fetched st).1.mem.progressPatents
      = st.mem.progressPatents
        ++ (((cycleTasks greenOn techOn bs fetched).flatMap (fun tk => tk.2)).dedup.map
            Json.str) := by
  show ((cycleTasks greenOn techOn bs fetched).enum.foldl
      (fun s it => persistTask s it.2.1 (processBatchResult (resp it.1))) st).mem.progressPatents
        ++ (((cycleTasks greenOn techOn bs fetched).flatMap (fun tk => tk.2)).dedup.map
            Json.str)
      = st.mem.progressPatents
        ++ (((cycleTasks greenOn techOn bs fetched).flatMap (fun tk => tk.2)).dedup.map
            Json.str)
  exact congrArg
    (fun l => l ++ (((cycleTasks greenOn techOn bs fetched).flatMap
      (fun tk => tk.2)).dedup.map Json.str))
    (persistFold_progressPatents (fun it => processBatchResult (resp it.1))
      ((cycleTasks greenOn techOn bs fetched).enum) st)

/-! ## Claim theorems -/

/-- C1: `_save_json` writes the full collection to `filepath + '.tmp'`
(step 1), then `os.remove(filepath)` (step 2), then `os.rename` (step 3).
Completed, the save atomically replaces the old snapshot with the new
one, and a crash after step 1 preserves the old file — but a crash
between the remove and the rename (after step 2) leaves the target file
ABSENT, which is neither the pre-call nor the post-call state.  This
contradicts the claim (and the source's own comment calling the sequence
an atomic operation): the remove-then-rename pair is not atomic. -/
theorem c1_save_crash_window :
    runFsSteps ⟨some "old", none⟩ (saveSteps "new") = ⟨some "new", none⟩
    ∧ (runFsSteps ⟨some "old", none⟩ ((saveSteps "new").take 1)).main = some "old"
    ∧ (runFsSteps ⟨some "old", none⟩ ((saveSteps "new").take 2)).main = none :=
  ⟨rfl, rfl, rfl⟩

/-- C3: when every attempt fails at the transport/HTTP level, a call
starting at retry count 0 makes exactly `max_retries + 1` attempts,
sleeps `retry_delay * k` before the k-th retry (k = 1 .. max_retries),
and returns `None`; the model is total, so no exception escapes the
client. -/
theorem c3_retry_bound (mr d : Nat) (out : Nat → Outcome) (s : Stats)
    (hfail : ∀ k, k ≤ mr → isTransportFail (out k) = true) :
    (callLLM mr d out 0 s).attempts.length = mr + 1
    ∧ (callLLM mr d out 0 s).delays = (List.range mr).map (fun k => d * (k + 1))
    ∧ (callLLM mr d out 0 s).retval = none := by
  have h := callLLM_allFail mr d out mr 0 s (by omega) (Nat.zero_le mr)
    (fun k _ hk2 => hfail k hk2)
  refine ⟨by simpa using h.1, ?_, h.2.2⟩
  rw [h.2.1]
  simp

/-- Witness for C3 at the shipped config (`max_retries = 3`,
`retry_delay = 3`) with every attempt timing out: 4 attempts, sleeps of
3, 6, 9 seconds, and a `None` result. -/
theorem c3_retry_bound_witness :
    (∀ k, k ≤ 3 → isTransportFail ((fun _ => Outcome.timeout) k) = true)
    ∧ (callLLM 3 3 (fun _ => Outcome.timeout) 0 Stats.zero).attempts.length = 4
    ∧ (callLLM 3 3 (fun _ => Outcome.timeout) 0 Stats.zero).delays = [3, 6, 9]
    ∧ (callLLM 3 3 (fun _ => Outcome.timeout) 0 Stats.zero).retval = none := by
  have h := c3_retry_bound 3 3 (fun _ => Outcome.timeout) Stats.zero (fun k _ => rfl)
  exact ⟨fun k _ => rfl, h.1, by rw [h.2.1]; decide, h.2.2⟩

/-- C5 (amended): every attempt — success, HTTP failure, timeout or
exception — increments the total-request counter exactly once; elapsed
wall-time is accumulated for every attempt that obtained an HTTP reply
(success *or* failure status: line 409 runs before the status test), and
not for attempts that raised before a reply. -/
theorem c5_stats_counters (mr d : Nat) (out : Nat → Outcome) (rc : Nat) (s : Stats) :
    (callLLM mr d out rc s).stats.total_requests
        = s.total_requests + (callLLM mr d out rc s).attempts.length
    ∧ (callLLM mr d out rc s).stats.total_time
        = s.total_time + ((callLLM mr d out rc s).attempts.map httpElapsed).sum :=
  callLLM_stats mr d out (mr - rc) rc s rfl

/-- C5 counterexample: a single attempt answered with HTTP status 500
after 7 time units (no retries allowed) accumulates `total_time = 7`
while `successful_requests = 0` — so wall-time is *not* accumulated only
for successful attempts, refuting the claim as stated. -/
theorem c5_counterexample :
    ¬ ((callLLM 0 3 (fun _ => Outcome.reply 500 7 "x") 0 Stats.zero).stats.successful_requests = 0
       → (callLLM 0 3 (fun _ => Outcome.reply 500 7 "x") 0 Stats.zero).stats.total_time = 0) := by
  have h : callLLM 0 3 (fun _ => Outcome.reply 500 7 "x") 0 Stats.zero
      = ⟨none, ⟨1, 0, 1, 0, 7⟩, [Outcome.reply 500 7 "x"], []⟩ := by
    rw [callLLM]
    rfl
  rw [h]
  intro himp
  exact absurd (himp rfl) (by decide)

/-- C7 (amended): for the three result kinds, `append_data` extends the
in-memory list with all the given items and immediately persists the
entire updated collection; for the progress kind the items are routed by
substring matching on `str(items)` — appended to `processed_patents` when
`'patents'` occurs in the text, else to `processed_entities` when
`'entities'` occurs, otherwise added nowhere — and the progress file is
persisted (with both full lists) in every case. -/
theorem c7_append_amended (items : List Json) (st : Store) :
    ((appendData .green items st).mem.green = st.mem.green ++ items
      ∧ (appendData .green items st).disk.green = some (st.mem.green ++ items))
    ∧ ((appendData .tech items st).mem.tech = st.mem.tech ++ items
      ∧ (appendData .tech items st).disk.tech = some (st.mem.tech ++ items))
    ∧ ((appendData .entityLocations items st).mem.entityLocations
          = st.mem.entityLocations ++ items
      ∧ (appendData .entityLocations items st).disk.entityLocations
          = some (st.mem.entityLocations ++ items))
    ∧ ((appendData .progress items st).mem.progressPatents
          = (if strContains (pyStrList items) "patents" = true
             then st.mem.progressPatents ++ items else st.mem.progressPatents)
      ∧ (appendData .progress items st).mem.progressEntities
          = (if strContains (pyStrList items) "patents" = false
                ∧ strContains (pyStrList items) "entities" = true
             then st.mem.progressEntities ++ items else st.mem.progressEntities)
      ∧ (appendData .progress items st).disk.progress
          = some ((appendData .progress items st).mem.progressPatents,
                  (appendData .progress items st).mem.progressEntities)) := by
  refine ⟨⟨rfl, rfl⟩, ⟨rfl, rfl⟩, ⟨rfl, rfl⟩, ?_, ?_, ?_⟩ <;>
    cases hp : strContains (pyStrList items) "patents" <;>
      cases he : strContains (pyStrList items) "entities" <;>
        simp [appendData, saveJson, hp, he]

/-- C7 counterexample: `append_data('progress', ['X'])` — `str(['X'])`
contains neither `'patents'` nor `'entities'`, so the item `'X'` is added
to neither progress list: the claim that `append(kind, items)` adds all
given items to the in-memory collection for the kind fails for the
progress kind. -/
theorem c7_progress_drops_item :
    jmem (Json.str "X")
      ((appendData .progress [Json.str "X"]
          (loadStore ⟨none, none, none, none⟩)).mem.progressPatents
        ++ (appendData .progress [Json.str "X"]
          (loadStore ⟨none, none, none, none⟩)).mem.progressEntities) = false :=
  rfl

/-- C2: in a patent fetch cycle (with at least one of the green/tech
task types enabled, as both are in the shipped config, and a positive
batch size), every key of the fetched set appears exactly once in the
cycle's marked list and keys outside it appear zero times; the ledger is
extended by exactly that marked list regardless of which task responses
succeeded or failed; and a fetched key is never returned by a later
fetch against the updated ledger (no re-queue within the run). -/
theorem c2_marked_exactly_once (greenOn techOn : Bool) (bs : Nat)
    (resp : Nat → Option String) (fetched : List Patent) (st : Store)
    (all : List Patent) (limit : Nat) (pid : String)
    (henabled : greenOn = true ∨ techOn = true) (hbs : 0 < bs) :
    (pid ∈ fetched.map Patent.patentId →
      ((cycleTasks greenOn techOn bs fetched).flatMap (fun tk => tk.2)).dedup.count pid = 1)
    ∧ (pid ∉ fetched.map Patent.patentId →
      ((cycleTasks greenOn techOn bs fetched).flatMap (fun tk => tk.2)).dedup.count pid = 0)
    ∧ (runPatentCycle greenOn techOn bs resp fetched st).1.mem.progressPatents
        = st.mem.progressPatents
          ++ (((cycleTasks greenOn techOn bs fetched).flatMap (fun tk => tk.2)).dedup.map
              Json.str)
    ∧ (pid ∈ fetched.map Patent.patentId →
        pid ∉ (getUnprocessedPatents all
            (runPatentCycle greenOn techOn bs resp fetched st).1 limit).map
          Patent.patentId) := by
  have hmem := mem_cycleTasks_ids greenOn techOn bs fetched pid henabled hbs
  have hledger := runPatentCycle_progressPatents greenOn techOn bs resp fetched st
  refine ⟨?_, ?_, hledger, ?_⟩
  · intro h
    rw [List.count_dedup, if_pos (hmem.2 h)]
  · intro h
    rw [List.count_dedup, if_neg (fun hx => h (hmem.1 hx))]
  · intro h hcontra
    obtain ⟨q, hq, hqid⟩ := List.mem_map.1 hcontra
    have hfalse := mem_guPatents_unprocessed
      (runPatentCycle greenOn techOn bs resp fetched st).1.mem.progressPatents
      limit all 0 q hq
    rw [hqid] at hfalse
    have htrue : jmem (Json.str pid)
        (runPatentCycle greenOn techOn bs resp fetched st).1.mem.progressPatents = true := by
      rw [hledger, jmem_append]
      have : jmem (Json.str pid)
          ((((cycleTasks greenOn techOn bs fetched).flatMap (fun tk => tk.2)).dedup).map
            Json.str) = true :=
        (jmem_str_map pid _).2 (List.mem_dedup.2 (hmem.2 h))
      rw [this, Bool.or_true]
    rw [htrue] at hfalse
    exact absurd hfalse (by simp)

/-- Witness for C2: a one-patent fetch with both task types enabled is
marked exactly once. -/
theorem c2_marked_exactly_once_witness :
    ((cycleTasks true true 10 [⟨"CN1", [], []⟩]).flatMap (fun tk => tk.2)).dedup.count "CN1"
      = 1 :=
  (c2_marked_exactly_once true true 10 (fun _ => none) [⟨"CN1", [], []⟩]
    (loadStore ⟨none, none, none, none⟩) [] 50 "CN1" (Or.inl rfl) (by decide)).1
    (by decide)

/-- C4: a 200-status reply is returned by the client at the first
attempt with no retry at any layer (even when its content is
unparsable); the unparsable content yields `None` from the batch parser,
which contributes zero ResultRecords (`persistTask` is the identity on
it); and the cycle's ledger extension is exactly the fetched keys,
unaffected by the parse failure. -/
theorem c4_malformed_never_retried (mr d : Nat) (out : Nat → Outcome) (s : Stats)
    (e : Nat) (t : String) (greenOn techOn : Bool) (bs : Nat)
    (resp : Nat → Option String) (fetched : List Patent) (st : Store)
    (hok : out 0 = Outcome.reply 200 e t)
    (hbad : processBatchParse t = none) :
    (callLLM mr d out 0 s).attempts = [out 0]
    ∧ (callLLM mr d out 0 s).stats.retries = s.retries
    ∧ (callLLM mr d out 0 s).retval = some t.trim
    ∧ processBatchResult (some t) = none
    ∧ (∀ (st2 : Store) (tt : TaskType),
        persistTask st2 tt (processBatchResult (some t)) = st2)
    ∧ (runPatentCycle greenOn techOn bs resp fetched st).1.mem.progressPatents
        = st.mem.progressPatents
          ++ (((cycleTasks greenOn techOn bs fetched).flatMap (fun tk => tk.2)).dedup.map
              Json.str) := by
  have hres : processBatchResult (some t) = none := by
    show (if t.isEmpty = true then none else processBatchParse t) = none
    by_cases ht : t.isEmpty = true
    · rw [if_pos ht]
    · rw [if_neg ht]
      exact hbad
  have hcall : callLLM mr d out 0 s
      = ⟨some t.trim,
         { s with
             total_requests := s.total_requests + 1
             successful_requests := s.successful_requests + 1
             total_time := s.total_time + e },
         [out 0], []⟩ := by
    rw [callLLM, hok]
    dsimp only
    rw [if_pos rfl]
  refine ⟨?_, ?_, ?_, hres, ?_, ?_⟩
  · rw [hcall]
  · rw [hcall]
  · rw [hcall]
  · intro st2 tt
    rw [hres]
    rfl
  · exact runPatentCycle_progressPatents greenOn techOn bs resp fetched st

/-- Witness for C4: a reply of `"nojson"` (no bracket pair) at the first
attempt, with an empty fetch for the cycle part. -/
theorem c4_malformed_never_retried_witness :
    (callLLM 3 3 (fun _ => Outcome.reply 200 5 "nojson") 0 Stats.zero).attempts
        = [(fun _ => Outcome.reply 200 5 "nojson") 0]
    ∧ (callLLM 3 3 (fun _ => Outcome.reply 200 5 "nojson") 0 Stats.zero).stats.retries
        = Stats.zero.retries
    ∧ (callLLM 3 3 (fun _ => Outcome.reply 200 5 "nojson") 0 Stats.zero).retval
        = some "nojson".trim
    ∧ processBatchResult (some "nojson") = none
    ∧ (∀ (st2 : Store) (tt : TaskType),
        persistTask st2 tt (processBatchResult (some "nojson")) = st2)
    ∧ (runPatentCycle true true 10 (fun _ => none) []
          (loadStore ⟨none, none, none, none⟩)).1.mem.progressPatents
        = (loadStore ⟨none, none, none, none⟩).mem.progressPatents
          ++ (((cycleTasks true true 10 []).flatMap (fun tk => tk.2)).dedup.map Json.str) :=
  c4_malformed_never_retried 3 3 (fun _ => Outcome.reply 200 5 "nojson") Stats.zero 5
    "nojson" true true 10 (fun _ => none) [] (loadStore ⟨none, none, none, none⟩) rfl rfl

/-- Spec Scenario C input: a successful response body with prose around
the JSON array. -/
def scenarioC : String :=
  "Here is the result:\n[\x7b\"patent_id\":\"CN123\",\"category_code\":\"GT1\"\x7d]\nDone."

/-- C6: `find('[')` returns the first `[` and `rfind(']')` the last `]`;
when both exist in order, the parser extracts exactly the slice between
them (inclusive); a missing bracket pair or a JSON decode failure yields
`None` (zero records for the chunk); and on the Scenario C input the
parser yields exactly one record whose `category_code` is `"GT1"`. -/
theorem c6_first_last_bracket_parse :
    (∀ (s : String) (i : Nat), pyFind '[' s.data = some i →
        s.data.getD i 'a' = '[' ∧ ∀ k, k < i → s.data.getD k 'a' ≠ '[')
    ∧ (∀ (s : String) (j : Nat), pyRfind ']' s.data = some j →
        s.data.getD j 'a' = ']' ∧ ∀ k, j < k → k < s.data.length → s.data.getD k 'a' ≠ ']')
    ∧ (∀ (s : String) (i j : Nat), pyFind '[' s.data = some i →
        pyRfind ']' s.data = some j → i < j + 1 →
        extractArraySub s = some (String.mk (pySlice s.data i (j + 1))))
    ∧ (∀ s : String, extractArraySub s = none → processBatchParse s = none)
    ∧ (∀ (s sub : String), extractArraySub s = some sub → jsonLoads sub = none →
        processBatchParse s = none)
    ∧ extractArraySub scenarioC
        = some "[\x7b\"patent_id\":\"CN123\",\"category_code\":\"GT1\"\x7d]"
    ∧ processBatchParse scenarioC
        = some [Json.obj [("patent_id", Json.str "CN123"),
                          ("category_code", Json.str "GT1")]]
    ∧ jlookup "category_code"
        [("patent_id", Json.str "CN123"), ("category_code", Json.str "GT1")]
        = some (Json.str "GT1") := by
  refine ⟨fun s i h => pyFind_spec '[' s.data i h,
    fun s j h => pyRfind_spec ']' s.data j h, ?_, ?_, ?_, rfl, rfl, rfl⟩
  · intro s i j hf hr hij
    unfold extractArraySub
    rw [hf, hr]
    dsimp only
    rw [if_pos hij]
  · intro s h
    unfold processBatchParse
    rw [h]
  · intro s sub h1 h2
    unfold processBatchParse
    rw [h1]
    dsimp only
    rw [h2]

/-- Witness for C6: the Scenario C extraction at the concrete bracket
positions 20 and 64, and a bracketless response parsing to `None`. -/
theorem c6_first_last_bracket_parse_witness :
    extractArraySub scenarioC = some (String.mk (pySlice scenarioC.data 20 (64 + 1)))
    ∧ processBatchParse "no brackets" = none :=
  ⟨c6_first_last_bracket_parse.2.2.1 scenarioC 20 64 rfl rfl (by omega),
   c6_first_last_bracket_parse.2.2.2.1 "no brackets" rfl⟩

/-- C8: resuming a session whose loaded ledger already covers every work
item's key makes both orchestrator loops exit at their first fetch: zero
cycles, zero API tasks dispatched, and a store identical to the loaded
one — every ResultRecord count unchanged — for any fuel, any responses,
any signal timing, and either state of the location flag. -/
theorem c8_idempotent_resumption (greenOn techOn locOn : Bool) (bs limit : Nat)
    (respP respE : Nat → Nat → Option String) (arriveP arriveE : Nat → Bool)
    (allP : List Patent) (allE : List Entity) (d : Disk) (fuelP fuelE : Nat)
    (hp : ∀ p ∈ allP, jmem (Json.str p.patentId) (loadStore d).mem.progressPatents = true)
    (he : ∀ e2 ∈ allE,
        jmem (Json.str e2.normalizedName) (loadStore d).mem.progressEntities = true) :
    runPatentLoop greenOn techOn bs limit respP arriveP allP fuelP (loadStore d)
        = ⟨loadStore d, 0, 0⟩
    ∧ runEntityLoop locOn respE arriveE allE fuelE (loadStore d) = ⟨loadStore d, 0, 0⟩ := by
  constructor
  · show runPatentLoopAux greenOn techOn bs limit respP arriveP allP fuelP 0 false
        (loadStore d) = ⟨loadStore d, 0, 0⟩
    cases fuelP with
    | zero => rfl
    | succ fuel =>
      have hgu : getUnprocessedPatents allP (loadStore d) limit = [] :=
        guPatents_all_processed _ limit allP 0 hp
      rw [runPatentLoopAux]
      cases harr : arriveP 0 <;> simp [harr, hgu]
  · unfold runEntityLoop
    cases hloc : locOn with
    | false => rw [if_neg (by simp)]
    | true =>
      rw [if_pos rfl]
      cases fuelE with
      | zero => rfl
      | succ fuel =>
        have hgu : getUnprocessedEntities allE (loadStore d) (entityBatchSize * 10) = [] :=
          guEntities_all_processed _ _ allE 0 he
        rw [runEntityLoopAux]
        cases harr : arriveE 0 <;> simp [harr, hgu]

/-- Witness for C8: a one-patent, one-entity catalog whose keys are both
already in the persisted ledger. -/
theorem c8_idempotent_resumption_witness :
    runPatentLoop true true 10 50 (fun _ _ => none) (fun _ => false)
        [⟨"CN1", [], []⟩] 3
        (loadStore ⟨none, none, none, some ([Json.str "CN1"], [Json.str "E1"])⟩)
      = ⟨loadStore ⟨none, none, none, some ([Json.str "CN1"], [Json.str "E1"])⟩, 0, 0⟩
    ∧ runEntityLoop true (fun _ _ => none) (fun _ => false)
        [⟨"E1", "E1", "企业"⟩] 3
        (loadStore ⟨none, none, none, some ([Json.str "CN1"], [Json.str "E1"])⟩)
      = ⟨loadStore ⟨none, none, none, some ([Json.str "CN1"], [Json.str "E1"])⟩, 0, 0⟩ :=
  c8_idempotent_resumption true true true 10 50 (fun _ _ => none) (fun _ _ => none)
    (fun _ => false) (fun _ => false) [⟨"CN1", [], []⟩] [⟨"E1", "E1", "企业"⟩]
    ⟨none, none, none, some ([Json.str "CN1"], [Json.str "E1"])⟩ 3 3
    (by intro p hp; rw [List.mem_singleton] at hp; subst hp; rfl)
    (by intro e2 he2; rw [List.mem_singleton] at he2; subst he2; rfl)

/-- C9: the stop flag only ever goes from unset to set (monotonic: the
handler writes `True` and nothing clears it), and the patent loop's
result is exactly `k` complete fetch-dispatch-persist-mark cycles for
some `k` such that every started cycle began with the flag unset — so
once the flag is set, the in-flight cycle still persists its results and
marks its items (the cycle is atomic in the model, as `asyncio.gather`
is awaited before persisting), and no further FETCHING begins. -/
theorem c9_cooperative_cancellation :
    (∀ (arrive : Nat → Bool) (m n : Nat), m ≤ n →
        flagAt arrive m = true → flagAt arrive n = true)
    ∧ (∀ (greenOn techOn : Bool) (bs limit : Nat) (resp : Nat → Nat → Option String)
        (arrive : Nat → Bool) (all : List Patent) (fuel : Nat) (st : Store),
        ∃ k,
          (runPatentLoop greenOn techOn bs limit resp arrive all fuel st).store
              = iterPatentCycles greenOn techOn bs limit resp all k 0 st
          ∧ (runPatentLoop greenOn techOn bs limit resp arrive all fuel st).cycles = k
          ∧ ∀ i, i < k → flagAt arrive i = false) := by
  constructor
  · intro arrive m n hmn hm
    induction n with
    | zero =>
      have hm0 : m = 0 := Nat.le_zero.1 hmn
      rw [hm0] at hm
      exact hm
    | succ n ihn =>
      by_cases hmn2 : m = n + 1
      · rw [← hmn2]
        exact hm
      · have hn := ihn (by omega)
        show (flagAt arrive n || arrive (n + 1)) = true
        rw [hn]
        rfl
  · intro greenOn techOn bs limit resp arrive all fuel st
    obtain ⟨k, hout, hflags⟩ :=
      runPatentLoopAux_spec greenOn techOn bs limit resp arrive all fuel 0 st
    exact ⟨k, congrArg LoopOut.store hout, congrArg LoopOut.cycles hout,
      fun i hi => hflags i (Nat.zero_le i) (by omega)⟩

/-- Witness for C9: a signal arriving in window 1 keeps the flag set at
check 3, and the loop characterization instantiated at an empty catalog. -/
theorem c9_cooperative_cancellation_witness :
    flagAt (fun i => i == 1) 3 = true
    ∧ ∃ k,
        (runPatentLoop true true 10 50 (fun _ _ => none) (fun i => i == 1) [] 2
            (loadStore ⟨none, none, none, none⟩)).store
            = iterPatentCycles true true 10 50 (fun _ _ => none) [] k 0
                (loadStore ⟨none, none, none, none⟩)
        ∧ (runPatentLoop true true 10 50 (fun _ _ => none) (fun i => i == 1) [] 2
            (loadStore ⟨none, none, none, none⟩)).cycles = k
        ∧ ∀ i, i < k → flagAt (fun i => i == 1) i = false :=
  ⟨c9_cooperative_cancellation.1 (fun i => i == 1) 1 3 (by decide) (by decide),
   c9_cooperative_cancellation.2 true true 10 50 (fun _ _ => none) (fun i => i == 1)
     [] 2 (loadStore ⟨none, none, none, none⟩)⟩

/-- C10: the extracted entity list never holds two items with the same
normalized name; the dict entry stored under a name is built from the
*first* raw applicant/owner string (in the source's traversal order)
normalizing to it; every listed entity is the unique entry under its
name; and within an entity cycle the names submitted across all location
batches (fetched list chunked by 10) are pairwise distinct — each name
is submitted at most once per cycle. -/
theorem c10_entity_names_unique (patents : List Patent) :
    ((extractEntities patents).map Entity.normalizedName).Nodup
    ∧ (∀ (n : String) (ent : Entity),
        dlookup n (extractEntitiesDict patents) = some ent
          ↔ ∃ raw, (rawEntityStrings patents).find? (matchesName n) = some raw
              ∧ ent = mkEntity raw n)
    ∧ (∀ ent ∈ extractEntities patents,
        dlookup ent.normalizedName (extractEntitiesDict patents) = some ent)
    ∧ (∀ (st : Store) (limit : Nat),
        (((chunksBy entityBatchSize
            (getUnprocessedEntities (extractEntities patents) st limit)).flatten).map
          Entity.normalizedName).Nodup) := by
  have hdict := extractEntitiesDict_eq_entFold patents
  have hnodup : ((extractEntitiesDict patents).map Prod.fst).Nodup := by
    rw [hdict]
    exact entFold_keysNodup _ [] (by simp)
  have hgood : ∀ pr ∈ extractEntitiesDict patents, pr.2.normalizedName = pr.1 := by
    rw [hdict]
    exact entFold_good _ [] (by simp)
  have hmapnames : (extractEntities patents).map Entity.normalizedName
      = (extractEntitiesDict patents).map Prod.fst := by
    unfold extractEntities
    rw [List.map_map]
    exact List.map_congr_left (fun pr hpr => hgood pr hpr)
  refine ⟨by rw [hmapnames]; exact hnodup, ?_, ?_, ?_⟩
  · intro n ent
    rw [hdict, dlookup_entFold]
    have h0 : dlookup n [] = none := rfl
    rw [h0]
    constructor
    · intro h
      have h2 : ((rawEntityStrings patents).find? (matchesName n)).map
          (fun r => mkEntity r n) = some ent := by
        cases hx : ((rawEntityStrings patents).find? (matchesName n)).map
            (fun r => mkEntity r n) with
        | none => rw [hx] at h; exact absurd h (by simp)
        | some w => rw [hx] at h; exact h
      obtain ⟨raw, hfind, hmk⟩ := Option.map_eq_some'.1 h2
      exact ⟨raw, hfind, hmk.symm⟩
    · rintro ⟨raw, hfind, rfl⟩
      rw [hfind]
      rfl
  · intro ent hent
    obtain ⟨pr, hpr, rfl⟩ := List.mem_map.1 hent
    rw [hgood pr hpr]
    exact dlookup_of_mem_nodup _ hnodup pr hpr
  · intro st limit
    rw [chunksBy_flatten entityBatchSize (by decide)]
    exact List.Nodup.sublist
      ((guEntities_sublist st.mem.progressEntities limit (extractEntities patents) 0).map
        Entity.normalizedName)
      (by rw [hmapnames]; exact hnodup)

/-- Witness for C10: one patent whose applicant `"Acme Inc"` normalizes
to `"Acme"`; the stored entity is retrievable under its normalized name. -/
theorem c10_entity_names_unique_witness :
    dlookup "Acme" (extractEntitiesDict [⟨"CN1", ["Acme Inc"], []⟩])
      = some ⟨"Acme", "Acme Inc", "企业"⟩ :=
  (c10_entity_names_unique [⟨"CN1", ["Acme Inc"], []⟩]).2.2.1
    ⟨"Acme", "Acme Inc", "企业"⟩ (by decide)

end BuildKG
